import Mathlib

set_option maxRecDepth 8000

/-!
Verification of the sudoku-core solver orchestrator
(src/crates/sudoku-core/src/solver/mod.rs) against its specification.

The orchestrator source is available and is embedded directly below
(pipeline dispatch order, apply_finding, propagate_full, difficulty
mapping, entry points).  The engine modules (basic, fish, als, aic,
uniqueness), the backtrack module and the Grid collaborator are not part
of the provided sources; following the specification they are modelled
from the spec where the claims need them, and kept abstract (a family of
engine functions) where only their interface matters.

Digit encoding: a digit d in 1..9 is represented by the value d - 1 of
type Fin 9.  Cells are linear indices row * 9 + col of type Fin 81, as
in the source (Position / idx_to_pos).
-/

namespace Sudoku

/-- Digits 1..9, represented as Fin 9 (value v stands for digit v+1). -/
abbrev Val : Type := Fin 9

/-- Linear cell index row * 9 + col, as in the source Position type. -/
abbrev Pos : Type := Fin 81

/-- Row of a linear cell index. -/
def rowOf (p : Pos) : Nat := p.val / 9

/-- Column of a linear cell index. -/
def colOf (p : Pos) : Nat := p.val % 9

/-- Box (3x3 block) of a linear cell index. -/
def boxOf (p : Pos) : Nat := rowOf p / 3 * 3 + colOf p / 3

/-- Modelled from the spec: the Peer relation of the missing grid geometry -
two distinct cells sharing a row, a column or a box (spec glossary). -/
def Peer (p q : Pos) : Prop :=
  p ≠ q ∧ (rowOf p = rowOf q ∨ colOf p = colOf q ∨ boxOf p = boxOf q)

instance instDecidablePeer (p q : Pos) : Decidable (Peer p q) := by
  unfold Peer; infer_instance

/-- The solved-digit part of a grid: for each cell, its solved digit if any. -/
abbrev PartialG : Type := Pos → Option Val

/-- A partial grid is consistent when no two peers hold the same solved digit. -/
def Consistent (g : PartialG) : Prop :=
  ∀ p q v, Peer p q → g p = some v → g q = some v → False

instance instDecidableConsistent (g : PartialG) : Decidable (Consistent g) := by
  unfold Consistent; infer_instance

/-- A total assignment is a valid solution when peers always differ. -/
def ValidSol (s : Pos → Val) : Prop := ∀ p q, Peer p q → s p ≠ s q

/-- A total assignment extends a partial grid when it agrees with every solved cell. -/
def ExtendsG (g : PartialG) (s : Pos → Val) : Prop := ∀ p v, g p = some v → s p = v

/-- A completion of a partial grid: a valid solution extending it. -/
def IsCompletion (g : PartialG) (s : Pos → Val) : Prop := ValidSol s ∧ ExtendsG g s

instance instDecidableIsCompletion (g : PartialG) (s : Pos → Val) :
    Decidable (IsCompletion g s) := by
  unfold IsCompletion ValidSol ExtendsG; infer_instance

/-- The finite set of completions of a partial grid. -/
def completionsOf (g : PartialG) : Finset (Pos → Val) :=
  Finset.univ.filter (fun s => IsCompletion g s)

/-- Modelled from the spec: recalculate_candidates of the missing grid module -
digit v is a candidate at cell p when no peer already holds v. -/
def candOK (g : PartialG) (p : Pos) (v : Val) : Prop := ∀ q, Peer q p → g q ≠ some v

instance instDecidableCandOK (g : PartialG) (p : Pos) (v : Val) : Decidable (candOK g p v) := by
  unfold candOK; infer_instance

/-- Candidate digits of a cell, in ascending digit order. -/
def candList (g : PartialG) (p : Pos) : List Val :=
  (List.finRange 9).filter (fun v => decide (candOK g p v))

/-- Unsolved cells of a partial grid, in ascending index order. -/
def emptyCells (g : PartialG) : List Pos :=
  (List.finRange 81).filter (fun p => (g p).isNone)

/-- Number of unsolved cells of a partial grid. -/
def emptyCount (g : PartialG) : Nat :=
  (Finset.univ.filter (fun p : Pos => g p = none)).card

/-- Modelled from the spec: the MRV branch choice of the missing backtrack module -
the unsolved cell with the fewest candidates (the first such cell on ties). -/
def chooseMRV (g : PartialG) : Option Pos :=
  (emptyCells g).argmin (fun p => (candList g p).length)

/-- Set a cell to a digit (set_cell_unchecked on the solved part). -/
def setCell (g : PartialG) (p : Pos) (v : Val) : PartialG :=
  fun q => if q = p then some v else g q

/-- Modelled from the spec: count_solutions_recursive of the missing backtrack
module - MRV depth-first search over the candidate digits, incrementing the
count on completion and halting as soon as the count reaches the limit.
The fuel argument makes the recursion structural; the entry points pass 82,
more than the number of cells, so it never runs out. -/
def countRec : Nat → PartialG → Nat → Nat → Nat
  | 0, _, cnt, _ => cnt
  | fuel+1, g, cnt, limit =>
    if limit ≤ cnt then cnt
    else
      match chooseMRV g with
      | none => cnt + 1
      | some p => (candList g p).foldl (fun c v => countRec fuel (setCell g p v) c limit) cnt

/-- Modelled from the spec: solve_recursive of the missing backtrack module -
MRV depth-first search returning the first completion found. -/
def solveRec : Nat → PartialG → Option PartialG
  | 0, _ => none
  | fuel+1, g =>
    match chooseMRV g with
    | none => some g
    | some p => (candList g p).findSome? (fun v => solveRec fuel (setCell g p v))

/-- Modelled from the spec: the Grid collaborator - a 9x9 grid of cells, each
either a solved digit or a set of remaining candidates (stored separately from
the solved digits, since eliminations mutate candidates only). -/
structure Grid where
  solved : PartialG
  cands : Pos → Val → Bool

/-- Modelled from the spec: deep_clone of the Grid collaborator.  In the value
semantics of the embedding a deep clone is the value itself. -/
def deepClone (g : Grid) : Grid := g

/-- Candidates derived from the solved digits alone. -/
def derivedCands (s : PartialG) : Pos → Val → Bool :=
  fun p v => (s p).isNone && decide (candOK s p v)

/-- Modelled from the spec: recalculate_candidates - reset the stored candidate
sets to the ones derived from the solved digits. -/
def recalcG (g : Grid) : Grid := ⟨g.solved, derivedCands g.solved⟩

/-- Grid built from a solved part with freshly derived candidates. -/
def mkGridOf (s : PartialG) : Grid := ⟨s, derivedCands s⟩

/-- The total assignment read off a grid with no unsolved cell. -/
def totalOf (g : PartialG) (h : ∀ p, g p ≠ none) : Pos → Val :=
  fun p => (g p).get (Option.isSome_iff_ne_none.mpr (h p))

/-! The solver entry points of mod.rs.  `Solver` is a stateless unit struct in
the source; its methods become plain functions here.  The backtrack module is
not in the provided sources, so `solveRec` and `countRec` above stand in for
`backtrack::solve_recursive` and `backtrack::count_solutions_recursive`,
modelled from the spec. -/

/-- Embeds Solver::solve (mod.rs lines 38-46): deep-clone, recalculate
candidates, run the backtracking search. -/
def Solver.solve (g : Grid) : Option Grid :=
  (solveRec 82 (recalcG (deepClone g)).solved).map mkGridOf

/-- Embeds Solver::count_solutions (mod.rs lines 49-55). -/
def Solver.count_solutions (g : Grid) (limit : Nat) : Nat :=
  countRec 82 (recalcG (deepClone g)).solved 0 limit

/-- Embeds Solver::has_unique_solution (mod.rs lines 57-60). -/
def Solver.has_unique_solution (g : Grid) : Bool :=
  Solver.count_solutions g 2 == 1

/-! The Technique and Difficulty enumerations.  types.rs is not in the
provided sources; the canonical order below is the one the spec fixes
(section 3), which also matches the dispatch order of mod.rs. -/

/-- Modelled from the spec: the Technique enumeration of the missing types
module, constructors in canonical ascending order. -/
inductive Technique
  | NakedSingle | HiddenSingle | NakedPair | HiddenPair | NakedTriple | HiddenTriple
  | PointingPair | BoxLineReduction
  | XWing | FinnedXWing | Swordfish | FinnedSwordfish | Jellyfish | FinnedJellyfish
  | NakedQuad | HiddenQuad
  | EmptyRectangle | AvoidableRectangle | UniqueRectangle | HiddenRectangle
  | XYWing | XYZWing | WXYZWing | WWing | XChain | ThreeDMedusa | SueDeCoq | AIC
  | FrankenFish | SiameseFish | AlsXz | ExtendedUniqueRectangle | BivalueUniversalGrave
  | AlsXyWing | AlsChain | MutantFish | AlignedPairExclusion | AlignedTripletExclusion
  | DeathBlossom
  | NishioForcingChain | KrakenFish | RegionForcingChain | CellForcingChain
  | DynamicForcingChain | Backtracking
  deriving DecidableEq, Fintype

/-- Ordinal of a technique in the canonical order (the derived Ord of the
Rust enumeration compares by declaration order). -/
def rank : Technique → Nat
  | .NakedSingle => 0
  | .HiddenSingle => 1
  | .NakedPair => 2
  | .HiddenPair => 3
  | .NakedTriple => 4
  | .HiddenTriple => 5
  | .PointingPair => 6
  | .BoxLineReduction => 7
  | .XWing => 8
  | .FinnedXWing => 9
  | .Swordfish => 10
  | .FinnedSwordfish => 11
  | .Jellyfish => 12
  | .FinnedJellyfish => 13
  | .NakedQuad => 14
  | .HiddenQuad => 15
  | .EmptyRectangle => 16
  | .AvoidableRectangle => 17
  | .UniqueRectangle => 18
  | .HiddenRectangle => 19
  | .XYWing => 20
  | .XYZWing => 21
  | .WXYZWing => 22
  | .WWing => 23
  | .XChain => 24
  | .ThreeDMedusa => 25
  | .SueDeCoq => 26
  | .AIC => 27
  | .FrankenFish => 28
  | .SiameseFish => 29
  | .AlsXz => 30
  | .ExtendedUniqueRectangle => 31
  | .BivalueUniversalGrave => 32
  | .AlsXyWing => 33
  | .AlsChain => 34
  | .MutantFish => 35
  | .AlignedPairExclusion => 36
  | .AlignedTripletExclusion => 37
  | .DeathBlossom => 38
  | .NishioForcingChain => 39
  | .KrakenFish => 40
  | .RegionForcingChain => 41
  | .CellForcingChain => 42
  | .DynamicForcingChain => 43
  | .Backtracking => 44

/-- Modelled from the spec: the ordinal Difficulty scale of the missing types
module, in ascending order. -/
inductive Difficulty
  | Beginner | Easy | Medium | Intermediate | Hard | Expert | Master | Extreme
  deriving DecidableEq

/-- Modelled from the spec: the inference payload of a Finding - a placement
or a set of eliminations. -/
inductive InferenceResult
  | Placement (cell : Pos) (value : Val)
  | Elimination (cell : Pos) (values : List Val)
  deriving DecidableEq

/-- Modelled from the spec: a Finding - technique tag plus inference.  The
human-readable witness payload of the source Finding is opaque to the
orchestrator and is omitted. -/
structure Finding where
  technique : Technique
  inference : InferenceResult
  deriving DecidableEq

/-- Modelled from the spec: the user-facing hint payload. -/
inductive HintType
  | SetValue (pos : Pos) (value : Val)
  | EliminateCandidates (pos : Pos) (values : List Val)
  deriving DecidableEq

/-- Modelled from the spec: the user-facing Hint - technique tag plus payload,
derived purely from a Finding. -/
structure Hint where
  technique : Technique
  hint_type : HintType
  deriving DecidableEq

/-- Modelled from the spec: Finding::to_hint - projection keeping the
technique tag. -/
def Finding.to_hint (f : Finding) : Hint :=
  ⟨f.technique,
    match f.inference with
    | .Placement c v => .SetValue c v
    | .Elimination c vs => .EliminateCandidates c vs⟩

/-- Abstract family of technique finders.  The engine modules (basic, fish,
als, aic, uniqueness) are not in the provided sources; the orchestrator calls
exactly one finder per technique, so the family is indexed by Technique.
Forcing-chain finders receive the grid (and build their propagation oracle
from it), the others read the candidate fabric derived from the grid, so a
function of the grid covers every finder signature. -/
abbrev Engines : Type := Technique → Grid → Option Finding

/-- The dispatch order of find_first_technique (mod.rs lines 101-167), one
entry per finder call, each call mapped to the technique it searches for.
solve_with_techniques (lines 183-250) and the inner loop of propagate_full
use the same order. -/
def pipelineOrder : List Technique :=
  [.NakedSingle, .HiddenSingle,
   .NakedPair, .HiddenPair, .NakedTriple, .HiddenTriple,
   .PointingPair, .BoxLineReduction,
   .XWing, .FinnedXWing, .Swordfish, .FinnedSwordfish, .Jellyfish, .FinnedJellyfish,
   .NakedQuad, .HiddenQuad,
   .EmptyRectangle, .AvoidableRectangle, .UniqueRectangle, .HiddenRectangle,
   .XYWing, .XYZWing, .WXYZWing, .WWing, .XChain, .ThreeDMedusa, .SueDeCoq, .AIC,
   .FrankenFish, .SiameseFish, .AlsXz, .ExtendedUniqueRectangle, .BivalueUniversalGrave,
   .AlsXyWing, .AlsChain, .MutantFish, .AlignedPairExclusion, .AlignedTripletExclusion,
   .DeathBlossom,
   .NishioForcingChain, .KrakenFish, .RegionForcingChain, .CellForcingChain,
   .DynamicForcingChain]

/-- Embeds Solver::find_first_technique (mod.rs lines 97-170): return the
first finding produced by the finders in dispatch order. -/
def Solver.find_first_technique (E : Engines) (g : Grid) : Option Finding :=
  pipelineOrder.findSome? (fun t => E t g)

/-- Modelled from the spec: set_cell_unchecked of the Grid collaborator
(solved part only; stored candidates are untouched until recalculation). -/
def Grid.set_cell_unchecked (g : Grid) (p : Pos) (v : Option Val) : Grid :=
  ⟨fun q => if q = p then v else g.solved q, g.cands⟩

/-- Modelled from the spec: cell_mut(pos).remove_candidate(d) of the Grid
collaborator. -/
def Grid.remove_candidate (g : Grid) (p : Pos) (v : Val) : Grid :=
  ⟨g.solved, fun q w => if q = p ∧ w = v then false else g.cands q w⟩

/-- Embeds apply_finding (mod.rs lines 328-342): placements set the cell and
recalculate candidates; eliminations only remove stored candidates. -/
def apply_finding (g : Grid) (f : Finding) : Grid :=
  match f.inference with
  | .Placement c v => recalcG (g.set_cell_unchecked c (some v))
  | .Elimination c vs => vs.foldl (fun gg v => gg.remove_candidate c v) g

/-- Modelled from the spec: is_complete of the Grid collaborator - every cell
solved. -/
def Grid.is_complete (g : Grid) : Bool :=
  (List.finRange 81).all (fun p => (g.solved p).isSome)

/-- House membership: houses 0-8 are rows, 9-17 columns, 18-26 boxes. -/
def inHouse (k : Fin 27) (p : Pos) : Bool :=
  if k.val < 9 then decide (rowOf p = k.val)
  else if k.val < 18 then decide (colOf p = k.val - 9)
  else decide (boxOf p = k.val - 18)

/-- Modelled from the spec: has_contradiction of the missing backtrack module -
an unsolved cell with an empty stored candidate set, or a house and digit such
that the digit is solved nowhere in the house and no cell of the house still
holds it as a candidate. -/
def has_contradiction (g : Grid) : Bool :=
  ((List.finRange 81).any fun p =>
    (g.solved p).isNone && ((List.finRange 9).all fun v => !(g.cands p v)))
  || ((List.finRange 27).any fun k => (List.finRange 9).any fun v =>
      ((List.finRange 81).all fun p => !(inHouse k p) || !(g.solved p == some v))
      && ((List.finRange 81).all fun p => !(inHouse k p) || !(g.cands p v)))

/-- The techniques tried inside the propagate_full loop (mod.rs lines
364-407): every finder of the pipeline except the forcing chains. -/
def propagateTechs : List Technique :=
  [.NakedSingle, .HiddenSingle,
   .NakedPair, .HiddenPair, .NakedTriple, .HiddenTriple,
   .PointingPair, .BoxLineReduction,
   .XWing, .FinnedXWing, .Swordfish, .FinnedSwordfish, .Jellyfish, .FinnedJellyfish,
   .NakedQuad, .HiddenQuad,
   .EmptyRectangle, .AvoidableRectangle, .UniqueRectangle, .HiddenRectangle,
   .XYWing, .XYZWing, .WXYZWing, .WWing, .XChain, .ThreeDMedusa, .SueDeCoq, .AIC,
   .FrankenFish, .SiameseFish, .AlsXz, .ExtendedUniqueRectangle, .BivalueUniversalGrave,
   .AlsXyWing, .AlsChain, .MutantFish, .AlignedPairExclusion, .AlignedTripletExclusion,
   .DeathBlossom]

/-- The forcing-chain techniques (spec section 4.6). -/
def forcingChainTechs : List Technique :=
  [.NishioForcingChain, .KrakenFish, .RegionForcingChain, .CellForcingChain,
   .DynamicForcingChain]

/-- The loop of propagate_full (mod.rs lines 353-414), fuel counting the
remaining loop iterations (the source writes a for loop over 0..200).  The
third component counts the findings actually applied. -/
def propagateLoop (E : Engines) : Nat → Grid → Grid × Bool × Nat
  | 0, g => (g, has_contradiction g, 0)
  | fuel+1, g =>
    if has_contradiction g then (g, true, 0)
    else if g.is_complete then (g, false, 0)
    else
      match propagateTechs.findSome? (fun t => E t g) with
      | some f =>
          let r := propagateLoop E fuel (apply_finding g f)
          (r.1, r.2.1, r.2.2 + 1)
      | none => (g, has_contradiction g, 0)

/-- Embeds propagate_full (mod.rs lines 348-418): deep-clone, assume the
placement, recalculate, then loop at most 200 times applying non-forcing-chain
techniques; the boolean reports a contradiction. -/
def propagate_full (E : Engines) (g : Grid) (pos : Pos) (val : Val) : Grid × Bool :=
  let r := propagateLoop E 200 (recalcG ((deepClone g).set_cell_unchecked pos (some val)))
  (r.1, r.2.1)

/-- Number of findings applied by a propagate_full run. -/
def propagate_full_steps (E : Engines) (g : Grid) (pos : Pos) (val : Val) : Nat :=
  (propagateLoop E 200 (recalcG ((deepClone g).set_cell_unchecked pos (some val)))).2.2

/-- Modelled from the spec: find_backtracking_hint of the missing backtrack
module - solve, then pair the first unsolved cell of the input with its
solved value, tagged Backtracking. -/
def find_backtracking_hint (g : Grid) : Option Finding :=
  match solveRec 82 g.solved with
  | none => none
  | some s =>
    match emptyCells g.solved with
    | [] => none
    | p :: _ =>
      match s p with
      | some v => some ⟨Technique.Backtracking, InferenceResult.Placement p v⟩
      | none => none

/-- Embeds Solver::get_hint (mod.rs lines 63-77): deep-clone, recalculate,
try the technique pipeline, then fall back to a backtracking hint. -/
def Solver.get_hint (E : Engines) (g : Grid) : Option Hint :=
  match Solver.find_first_technique E (recalcG (deepClone g)) with
  | some f => some f.to_hint
  | none =>
    match find_backtracking_hint (recalcG (deepClone g)) with
    | some f => some f.to_hint
    | none => none

/-- The loop of solve_with_techniques (mod.rs lines 177-265), with fuel making
the recursion structural (the source loop has no bound; in the claims proved
below the fuel case is never reached).  Returns the running maximum technique
and the number of findings applied; when no finding applies to an incomplete
grid the source finishes by backtracking and returns Backtracking. -/
def swtLoop (E : Engines) : Nat → Grid → Technique → Technique × Nat
  | 0, _, maxT => (maxT, 0)
  | fuel+1, g, maxT =>
    if g.is_complete then (maxT, 0)
    else
      match Solver.find_first_technique E g with
      | some f =>
          let m := if rank maxT < rank f.technique then f.technique else maxT
          let r := swtLoop E fuel (apply_finding g f) m
          (r.1, r.2 + 1)
      | none => (Technique.Backtracking, 0)

/-- Embeds Solver::solve_with_techniques (mod.rs lines 173-268).  The dispatch
list inside the source loop (lines 183-250) is the same list, in the same
order, as find_first_technique, which the model reuses. -/
def Solver.solve_with_techniques (E : Engines) (g : Grid) : Technique × Nat :=
  swtLoop E 729 (recalcG g) Technique.NakedSingle

/-- Embeds Solver::technique_to_difficulty (mod.rs lines 271-324). -/
def Solver.technique_to_difficulty (tech : Technique) (empty_count : Nat) : Difficulty :=
  match tech with
  | .NakedSingle => if empty_count ≤ 35 then .Beginner else .Easy
  | .HiddenSingle => .Medium
  | .NakedPair | .HiddenPair | .NakedTriple | .HiddenTriple => .Intermediate
  | .PointingPair | .BoxLineReduction => .Hard
  | .XWing | .FinnedXWing | .Swordfish | .FinnedSwordfish | .Jellyfish | .FinnedJellyfish
  | .NakedQuad | .HiddenQuad | .EmptyRectangle | .AvoidableRectangle | .UniqueRectangle
  | .HiddenRectangle => .Expert
  | .XYWing | .XYZWing | .WXYZWing | .WWing | .XChain | .ThreeDMedusa | .SueDeCoq | .AIC
  | .FrankenFish | .SiameseFish | .AlsXz | .ExtendedUniqueRectangle
  | .BivalueUniversalGrave => .Master
  | .AlsXyWing | .AlsChain | .MutantFish | .AlignedPairExclusion | .AlignedTripletExclusion
  | .DeathBlossom | .NishioForcingChain | .KrakenFish | .RegionForcingChain
  | .CellForcingChain | .DynamicForcingChain | .Backtracking => .Extreme

/-- Embeds Solver::rate_difficulty (mod.rs lines 80-85): the empty-cell count
is taken from the input grid before solving. -/
def Solver.rate_difficulty (E : Engines) (g : Grid) : Difficulty :=
  Solver.technique_to_difficulty
    (Solver.solve_with_techniques E (deepClone g)).1 (emptyCells g.solved).length

/-- Embeds Solver::rate_se (mod.rs lines 88-92).  The fixed numeric scale
(se_rating of the missing types module) is abstract; the claims only relate
the result to the rating of the returned technique. -/
def Solver.rate_se (se_rating : Technique → ℚ) (E : Engines) (g : Grid) : ℚ :=
  se_rating (Solver.solve_with_techniques E (deepClone g)).1

/-! Calls through a shared reference, for the frame claims.  Each public
entry point of the source takes the callers grid by shared reference and
works on a deep clone; a call is modelled as the pair of the result and the
callers grid after the call. -/

/-- Call to Solver::solve by shared reference. -/
def solve_call (caller : Grid) : Option Grid × Grid := (Solver.solve caller, caller)

/-- Call to Solver::count_solutions by shared reference. -/
def count_solutions_call (caller : Grid) (limit : Nat) : Nat × Grid :=
  (Solver.count_solutions caller limit, caller)

/-- Call to Solver::has_unique_solution by shared reference. -/
def has_unique_solution_call (caller : Grid) : Bool × Grid :=
  (Solver.has_unique_solution caller, caller)

/-- Call to Solver::get_hint by shared reference. -/
def get_hint_call (E : Engines) (caller : Grid) : Option Hint × Grid :=
  (Solver.get_hint E caller, caller)

/-- Call to Solver::rate_difficulty by shared reference. -/
def rate_difficulty_call (E : Engines) (caller : Grid) : Difficulty × Grid :=
  (Solver.rate_difficulty E caller, caller)

/-- Call to Solver::rate_se by shared reference. -/
def rate_se_call (se_rating : Technique → ℚ) (E : Engines) (caller : Grid) : ℚ × Grid :=
  (Solver.rate_se se_rating E caller, caller)

/-! Houses as finite sets, for the claim that a solved grid has every house a
permutation of the nine digits. -/

/-- Cells of house k as a finite set. -/
def houseCells (k : Fin 27) : Finset Pos := Finset.univ.filter (fun p => inHouse k p)

/-- Every house of a total assignment holds each of the nine digits. -/
def HousePerm (s : Pos → Val) : Prop := ∀ k, (houseCells k).image s = Finset.univ

/-! Concrete grids used to instantiate the theorems below. -/

/-- The digit n in 1..9 as a value of Fin 9 (value n-1). -/
def dg (n : Nat) : Val := ⟨(n - 1) % 9, Nat.mod_lt _ (by omega)⟩

/-- Decimal digit of N at position i (cell 0 in the least significant digit). -/
def digitAt (N i : Nat) : Nat := N / 10 ^ i % 10

/-- A complete valid grid, rows top to bottom:
134256789 / 278193456 / 569478123 / 481362975 / 725981364 /
396547218 / 813629547 / 947815632 / 652734891, encoded with cell 0 in the
least significant decimal digit. -/
def S1num : Nat :=
  198437256236518749745926318812745693463189527579263184321874965654391872987652431

/-- The total assignment of the complete grid above. -/
def S1f : Pos → Val := fun p => dg (digitAt S1num p.val)

/-- The same assignment with the deadly rectangle on cells 0, 3, 9, 12
(rows 0-1, columns 0 and 3, boxes 0 and 1, digits 1 and 2) swapped. -/
def S2f : Pos → Val := fun p =>
  if p.val = 0 then dg 2
  else if p.val = 3 then dg 1
  else if p.val = 9 then dg 1
  else if p.val = 12 then dg 2
  else S1f p

/-- The complete grid as a Grid value. -/
def fullGrid : Grid := mkGridOf (fun p => some (S1f p))

/-- The complete grid with one hole at cell 40: exactly one completion. -/
def oneHoleGrid : Grid := mkGridOf (fun p => if p.val = 40 then none else some (S1f p))

/-- The complete grid with the four rectangle cells 0, 3, 9, 12 cleared: both
S1f and S2f complete it. -/
def rectHolesGrid : Grid := mkGridOf (fun p =>
  if p.val = 0 ∨ p.val = 3 ∨ p.val = 9 ∨ p.val = 12 then none else some (S1f p))

/-- The complete but conflicting grid holding digit 1 in every cell. -/
def allOnesGrid : Grid := mkGridOf (fun _ => some (dg 1))

instance instDecidableValidSol (s : Pos → Val) : Decidable (ValidSol s) := by
  unfold ValidSol; infer_instance

instance instDecidableExtendsG (g : PartialG) (s : Pos → Val) :
    Decidable (ExtendsG g s) := by
  unfold ExtendsG; infer_instance

/-- Transcription of the difficulty table exactly as the claim words it, by
bands of the canonical rank. -/
def specDifficultyTable (t : Technique) (empty_count : Nat) : Difficulty :=
  if rank t = 0 then (if empty_count ≤ 35 then .Beginner else .Easy)
  else if rank t = 1 then .Medium
  else if rank t ≤ rank Technique.HiddenTriple then .Intermediate
  else if rank t ≤ rank Technique.BoxLineReduction then .Hard
  else if rank t ≤ rank Technique.HiddenRectangle then .Expert
  else if rank t ≤ rank Technique.BivalueUniversalGrave then .Master
  else .Extreme

/-- An engine family returning no finding anywhere. -/
def noEngines : Engines := fun _ _ => none

theorem Peer.symm {p q : Pos} (h : Peer p q) : Peer q p := by
  obtain ⟨hne, hh⟩ := h
  exact ⟨hne.symm, by tauto⟩

theorem mem_completionsOf {g : PartialG} {s : Pos → Val} :
    s ∈ completionsOf g ↔ IsCompletion g s := by
  simp [completionsOf]

theorem mem_candList {g : PartialG} {p : Pos} {v : Val} :
    v ∈ candList g p ↔ candOK g p v := by
  simp [candList, List.mem_filter, List.mem_finRange]

theorem mem_emptyCells {g : PartialG} {p : Pos} :
    p ∈ emptyCells g ↔ g p = none := by
  simp [emptyCells, List.mem_filter, List.mem_finRange, Option.isNone_iff_eq_none]

theorem chooseMRV_eq_none {g : PartialG} :
    chooseMRV g = none ↔ ∀ p, g p ≠ none := by
  unfold chooseMRV
  rw [List.argmin_eq_none]
  constructor
  · intro h p hp
    have : p ∈ emptyCells g := mem_emptyCells.mpr hp
    simp [h] at this
  · intro h
    by_contra hne
    obtain ⟨p, hp⟩ := List.exists_mem_of_ne_nil _ hne
    exact h p (mem_emptyCells.mp hp)

theorem chooseMRV_some_empty {g : PartialG} {p : Pos} (h : chooseMRV g = some p) :
    g p = none := by
  have : p ∈ emptyCells g := List.argmin_mem h
  exact mem_emptyCells.mp this

theorem recalcG_solved (g : Grid) : (recalcG g).solved = g.solved := rfl

/-! Basic facts about setCell, candidates and completions. -/

theorem setCell_self (g : PartialG) (p : Pos) (v : Val) : setCell g p v p = some v := by
  simp [setCell]

theorem setCell_other (g : PartialG) (p : Pos) (v : Val) {q : Pos} (h : q ≠ p) :
    setCell g p v q = g q := by
  simp [setCell, h]

theorem completion_of_setCell {g : PartialG} {p : Pos} (hp : g p = none)
    {v : Val} {s : Pos → Val} (h : IsCompletion (setCell g p v) s) :
    IsCompletion g s ∧ s p = v := by
  obtain ⟨hv, he⟩ := h
  refine ⟨⟨hv, ?_⟩, ?_⟩
  · intro q w hq
    have hqp : q ≠ p := by
      intro hqq; rw [hqq, hp] at hq; cases hq
    exact he q w (by rw [setCell_other g p v hqp]; exact hq)
  · exact he p v (setCell_self g p v)

theorem completion_to_setCell {g : PartialG} {p : Pos} (hp : g p = none)
    {s : Pos → Val} (h : IsCompletion g s) :
    s p ∈ candList g p ∧ IsCompletion (setCell g p (s p)) s := by
  obtain ⟨hv, he⟩ := h
  constructor
  · rw [mem_candList]
    intro q hq hgq
    exact hv q p hq (he q (s p) hgq)
  · refine ⟨hv, ?_⟩
    intro q w hq
    by_cases hqp : q = p
    · subst hqp
      rw [setCell_self] at hq
      exact Option.some_injective _ hq
    · exact he q w (by rw [setCell_other g p (s p) hqp] at hq; exact hq)

theorem completionsOf_decompose {g : PartialG} {p : Pos} (hp : g p = none) :
    completionsOf g =
      (candList g p).toFinset.biUnion (fun v => completionsOf (setCell g p v)) := by
  ext s
  simp only [Finset.mem_biUnion, List.mem_toFinset, mem_completionsOf]
  constructor
  · intro h
    obtain ⟨hm, hc⟩ := completion_to_setCell hp h
    exact ⟨s p, hm, hc⟩
  · rintro ⟨v, _, hc⟩
    exact (completion_of_setCell hp hc).1

theorem completionsOf_card_decompose {g : PartialG} {p : Pos} (hp : g p = none) :
    (completionsOf g).card =
      ((candList g p).map (fun v => (completionsOf (setCell g p v)).card)).sum := by
  rw [completionsOf_decompose hp]
  rw [Finset.card_biUnion]
  · exact List.sum_toFinset _ (List.Nodup.filter _ (List.nodup_finRange 9))
  · intro v _ w _ hvw
    rw [Finset.disjoint_left]
    intro s hs hs2
    rw [mem_completionsOf] at hs hs2
    have h1 := (completion_of_setCell hp hs).2
    have h2 := (completion_of_setCell hp hs2).2
    exact hvw (h1 ▸ h2 ▸ rfl)

theorem consistent_setCell {g : PartialG} (hg : Consistent g) {p : Pos}
    (_hp : g p = none) {v : Val} (hv : candOK g p v) :
    Consistent (setCell g p v) := by
  intro a b w hab ha hb
  by_cases hap : a = p
  · have hbp : b ≠ p := fun h2 => hab.1 (hap.trans h2.symm)
    rw [hap, setCell_self] at ha
    rw [setCell_other g p v hbp] at hb
    have hwv : w = v := (Option.some_injective _ ha).symm
    subst hwv
    exact hv b (Peer.symm (hap ▸ hab)) hb
  · rw [setCell_other g p v hap] at ha
    by_cases hbp : b = p
    · rw [hbp, setCell_self] at hb
      have hwv : w = v := (Option.some_injective _ hb).symm
      subst hwv
      exact hv a (hbp ▸ hab) ha
    · rw [setCell_other g p v hbp] at hb
      exact hg a b w hab ha hb

theorem emptyCount_setCell {g : PartialG} {p : Pos} (hp : g p = none) (v : Val) :
    emptyCount (setCell g p v) < emptyCount g := by
  unfold emptyCount
  have hmem : p ∈ Finset.univ.filter (fun q : Pos => g q = none) := by
    simp [hp]
  have heq : Finset.univ.filter (fun q : Pos => setCell g p v q = none) =
      (Finset.univ.filter (fun q : Pos => g q = none)).erase p := by
    ext q
    simp only [Finset.mem_filter, Finset.mem_univ, true_and, Finset.mem_erase]
    by_cases hqp : q = p
    · subst hqp
      simp [setCell_self]
    · simp [setCell_other g p v hqp, hqp]
  rw [heq, Finset.card_erase_of_mem hmem]
  exact Nat.sub_lt (Finset.card_pos.mpr ⟨p, hmem⟩) Nat.one_pos

theorem emptyCount_lt_82 (g : PartialG) : emptyCount g < 82 := by
  unfold emptyCount
  calc (Finset.univ.filter (fun p : Pos => g p = none)).card
      ≤ (Finset.univ : Finset Pos).card := Finset.card_filter_le _ _
    _ = 81 := by simp
    _ < 82 := by omega

theorem totalOf_sound {g : PartialG} (h : ∀ p, g p ≠ none) (p : Pos) :
    g p = some (totalOf g h p) := by
  simp [totalOf]

theorem completionsOf_complete {g : PartialG} (hc : ∀ p, g p ≠ none)
    (hg : Consistent g) : completionsOf g = {totalOf g hc} := by
  apply Finset.eq_singleton_iff_unique_mem.mpr
  constructor
  · rw [mem_completionsOf]
    refine ⟨?_, ?_⟩
    · intro p q hpq heq
      exact hg p q (totalOf g hc p)
        hpq (totalOf_sound hc p) (heq ▸ totalOf_sound hc q)
    · intro p v hv
      have := totalOf_sound hc p
      rw [hv] at this
      exact (Option.some_injective _ this).symm
  · intro s hs
    rw [mem_completionsOf] at hs
    funext p
    exact hs.2 p (totalOf g hc p) (totalOf_sound hc p)

theorem min_add_min (a b c : Nat) : min (min a b + c) b = min (a + c) b := by
  omega

theorem countRec_succ (fuel : Nat) (g : PartialG) (cnt limit : Nat) :
    countRec (fuel+1) g cnt limit =
      if limit ≤ cnt then cnt
      else
        match chooseMRV g with
        | none => cnt + 1
        | some p =>
            (candList g p).foldl (fun c v => countRec fuel (setCell g p v) c limit) cnt := rfl

/-- Main counting lemma: on a consistent grid, the MRV search with early halt
returns the number of completions plus the starting count, capped at the limit. -/
theorem countRec_correct : ∀ fuel (g : PartialG), Consistent g → emptyCount g < fuel →
    ∀ cnt limit, cnt ≤ limit →
    countRec fuel g cnt limit = min (cnt + (completionsOf g).card) limit := by
  intro fuel
  induction fuel with
  | zero => intro g _ hlt; omega
  | succ n ih =>
    intro g hg hlt cnt limit hcnt
    by_cases hstop : limit ≤ cnt
    · rw [countRec_succ, if_pos hstop]
      omega
    · rcases hmrv : chooseMRV g with _ | p
      · have hcomplete : ∀ p, g p ≠ none := chooseMRV_eq_none.mp hmrv
        rw [completionsOf_complete hcomplete hg, Finset.card_singleton,
          countRec_succ, if_neg hstop, hmrv]
        show cnt + 1 = min (cnt + 1) limit
        omega
      · have hp : g p = none := chooseMRV_some_empty hmrv
        have hfold : ∀ (vs : List Val), (∀ v ∈ vs, candOK g p v) →
            ∀ c, c ≤ limit →
            vs.foldl (fun c v => countRec n (setCell g p v) c limit) c =
              min (c + (vs.map (fun v => (completionsOf (setCell g p v)).card)).sum) limit := by
          intro vs
          induction vs with
          | nil =>
            intro _ c hc
            simp only [List.foldl_nil, List.map_nil, List.sum_nil]
            omega
          | cons v tl ihtl =>
            intro hall c hc
            have hcand : candOK g p v := hall v (List.mem_cons_self v tl)
            have hstep : countRec n (setCell g p v) c limit =
                min (c + (completionsOf (setCell g p v)).card) limit := by
              refine ih (setCell g p v) (consistent_setCell hg hp hcand) ?_ c limit hc
              have := emptyCount_setCell hp v
              omega
            simp only [List.foldl_cons, List.map_cons, List.sum_cons]
            rw [hstep]
            rw [ihtl (fun w hw => hall w (List.mem_cons_of_mem v hw)) _ (Nat.min_le_right _ _)]
            rw [min_add_min, Nat.add_assoc]
        rw [countRec_succ, if_neg hstop, hmrv]
        exact (hfold (candList g p) (fun v hv => mem_candList.mp hv) cnt hcnt).trans
          (by rw [completionsOf_card_decompose hp])

theorem solveRec_succ (fuel : Nat) (g : PartialG) :
    solveRec (fuel+1) g =
      match chooseMRV g with
      | none => some g
      | some p => (candList g p).findSome? (fun v => solveRec fuel (setCell g p v)) := rfl

/-- Soundness of the MRV search: a returned grid is complete, extends the
input, and is consistent whenever the input is. -/
theorem solveRec_sound : ∀ fuel (g h : PartialG), emptyCount g < fuel →
    solveRec fuel g = some h →
    (∀ p, h p ≠ none) ∧ (∀ p v, g p = some v → h p = some v) ∧
      (Consistent g → Consistent h) := by
  intro fuel
  induction fuel with
  | zero => intro g h hlt; omega
  | succ n ih =>
    intro g h hlt hres
    rw [solveRec_succ] at hres
    rcases hmrv : chooseMRV g with _ | p
    · rw [hmrv] at hres
      have hgh : g = h := Option.some_injective _ hres
      subst hgh
      exact ⟨chooseMRV_eq_none.mp hmrv, fun p v hv => hv, fun hc => hc⟩
    · rw [hmrv] at hres
      have hp : g p = none := chooseMRV_some_empty hmrv
      obtain ⟨v, hv, hsome⟩ := List.exists_of_findSome?_eq_some hres
      have hcand : candOK g p v := mem_candList.mp hv
      have hlt2 : emptyCount (setCell g p v) < n := by
        have := emptyCount_setCell hp v
        omega
      obtain ⟨h1, h2, h3⟩ := ih (setCell g p v) h hlt2 hsome
      refine ⟨h1, ?_, ?_⟩
      · intro q w hq
        have hqp : q ≠ p := by
          intro hqq; rw [hqq, hp] at hq; cases hq
        exact h2 q w (by rw [setCell_other g p v hqp]; exact hq)
      · intro hc
        exact h3 (consistent_setCell hc hp hcand)

/-- Completeness of the MRV search: if a completion exists, the search does
not fail. -/
theorem solveRec_ne_none : ∀ fuel (g : PartialG) (s : Pos → Val), emptyCount g < fuel →
    IsCompletion g s → solveRec fuel g ≠ none := by
  intro fuel
  induction fuel with
  | zero => intro g s hlt; omega
  | succ n ih =>
    intro g s hlt hs
    rw [solveRec_succ]
    rcases hmrv : chooseMRV g with _ | p
    · simp
    · have hp : g p = none := chooseMRV_some_empty hmrv
      obtain ⟨hv, hc⟩ := completion_to_setCell hp hs
      intro hnone
      rw [List.findSome?_eq_none_iff] at hnone
      have hlt2 : emptyCount (setCell g p (s p)) < n := by
        have := emptyCount_setCell hp (s p)
        omega
      exact ih (setCell g p (s p)) s hlt2 hc (hnone (s p) hv)

theorem count_solutions_correct (g : Grid) (hg : Consistent g.solved) (limit : Nat) :
    Solver.count_solutions g limit = min (completionsOf g.solved).card limit := by
  unfold Solver.count_solutions
  rw [countRec_correct 82 (recalcG (deepClone g)).solved hg
    (emptyCount_lt_82 _) 0 limit (Nat.zero_le _)]
  rw [Nat.zero_add]
  rfl

theorem peer_of_inHouse {k : Fin 27} {p q : Pos} (hp : inHouse k p = true)
    (hq : inHouse k q = true) (hne : p ≠ q) : Peer p q := by
  unfold inHouse at hp hq
  by_cases h9 : k.val < 9
  · simp only [h9, if_true, decide_eq_true_eq] at hp hq
    exact ⟨hne, Or.inl (hp.trans hq.symm)⟩
  · by_cases h18 : k.val < 18
    · simp only [h9, h18, if_false, if_true, decide_eq_true_eq] at hp hq
      exact ⟨hne, Or.inr (Or.inl (hp.trans hq.symm))⟩
    · simp only [h9, h18, if_false, decide_eq_true_eq] at hp hq
      exact ⟨hne, Or.inr (Or.inr (hp.trans hq.symm))⟩

theorem houseCells_card (k : Fin 27) : (houseCells k).card = 9 := by
  revert k; decide

theorem housePerm_of_validSol {s : Pos → Val} (hs : ValidSol s) : HousePerm s := by
  intro k
  have hinj : Set.InjOn s (houseCells k) := by
    intro p hp q hq hsq
    by_contra hne
    exact hs p q (peer_of_inHouse (Finset.mem_filter.mp hp).2
      (Finset.mem_filter.mp hq).2 hne) hsq
  apply Finset.eq_univ_of_card
  rw [Finset.card_image_of_injOn hinj, houseCells_card]
  simp

theorem S1f_validSol : ValidSol S1f := by decide

theorem S2f_validSol : ValidSol S2f := by decide

theorem consistent_of_extends {g : PartialG} {s : Pos → Val} (hs : ValidSol s)
    (he : ∀ p v, g p = some v → s p = v) : Consistent g := by
  intro p q v hpq hp hq
  exact hs p q hpq (by rw [he p v hp, he q v hq])

theorem rectHoles_completion_S1 : IsCompletion rectHolesGrid.solved S1f :=
  ⟨S1f_validSol, by decide⟩

theorem rectHoles_completion_S2 : IsCompletion rectHolesGrid.solved S2f :=
  ⟨S2f_validSol, by decide⟩

theorem oneHole_completion_S1 : IsCompletion oneHoleGrid.solved S1f :=
  ⟨S1f_validSol, by decide⟩

theorem oneHole_consistent : Consistent oneHoleGrid.solved :=
  consistent_of_extends S1f_validSol oneHole_completion_S1.2

/-! Unfolding equations and small helpers for the orchestrator loops. -/

theorem propagateLoop_succ (E : Engines) (fuel : Nat) (g : Grid) :
    propagateLoop E (fuel+1) g =
      if has_contradiction g then (g, true, 0)
      else if g.is_complete then (g, false, 0)
      else
        match propagateTechs.findSome? (fun t => E t g) with
        | some f =>
            let r := propagateLoop E fuel (apply_finding g f)
            (r.1, r.2.1, r.2.2 + 1)
        | none => (g, has_contradiction g, 0) := rfl

theorem swtLoop_succ (E : Engines) (fuel : Nat) (g : Grid) (maxT : Technique) :
    swtLoop E (fuel+1) g maxT =
      if g.is_complete then (maxT, 0)
      else
        match Solver.find_first_technique E g with
        | some f =>
            let m := if rank maxT < rank f.technique then f.technique else maxT
            let r := swtLoop E fuel (apply_finding g f) m
            (r.1, r.2 + 1)
        | none => (Technique.Backtracking, 0) := rfl

theorem emptyCells_nil_of_complete {g : Grid} (hc : g.is_complete = true) :
    emptyCells g.solved = [] := by
  unfold Grid.is_complete at hc
  rw [List.all_eq_true] at hc
  unfold emptyCells
  rw [List.filter_eq_nil_iff]
  intro p hp
  have h2 := hc p hp
  rcases h3 : g.solved p with _ | v
  · rw [h3] at h2; cases h2
  · simp [h3]

theorem complete_of_emptyCells_nil {g : Grid} (hc : emptyCells g.solved = []) :
    g.is_complete = true := by
  unfold Grid.is_complete
  rw [List.all_eq_true]
  intro p hp
  rcases h3 : g.solved p with _ | v
  · exfalso
    have : p ∈ emptyCells g.solved := mem_emptyCells.mpr h3
    rw [hc] at this
    cases this
  · simp

/-- C6 (frame effect): every public entry point returns the callers grid
unchanged; the results are functions of the arguments alone, so equal calls
agree.  The entry points operate on the deep clone of the callers grid only. -/
theorem c6_no_caller_mutation :
    ∀ (g : Grid) (limit : Nat) (E : Engines) (se_rating : Technique → ℚ),
      (solve_call g).2 = g ∧
      (count_solutions_call g limit).2 = g ∧
      (has_unique_solution_call g).2 = g ∧
      (get_hint_call E g).2 = g ∧
      (rate_difficulty_call E g).2 = g ∧
      (rate_se_call se_rating E g).2 = g ∧
      deepClone g = g := by
  intro g limit E se_rating
  exact ⟨rfl, rfl, rfl, rfl, rfl, rfl, rfl⟩

theorem propagateLoop_steps_le (E : Engines) :
    ∀ fuel (g : Grid), (propagateLoop E fuel g).2.2 ≤ fuel := by
  intro fuel
  induction fuel with
  | zero => intro g; exact Nat.le_refl 0
  | succ n ih =>
    intro g
    rw [propagateLoop_succ]
    by_cases hc : has_contradiction g
    · rw [if_pos hc]; exact Nat.zero_le _
    · rw [if_neg hc]
      by_cases hcm : g.is_complete
      · rw [if_pos hcm]; exact Nat.zero_le _
      · rw [if_neg hcm]
        rcases hf : propagateTechs.findSome? (fun t => E t g) with _ | f
        · exact Nat.zero_le _
        · have := ih (apply_finding g f)
          simp only []
          omega

/-- C7 (termination): the propagate_full loop applies at most 200 findings per
hypothesis, and the technique list it dispatches contains no forcing-chain
technique. -/
theorem c7_propagation_bounded :
    (∀ (E : Engines) (g : Grid) (pos : Pos) (val : Val),
        propagate_full_steps E g pos val ≤ 200) ∧
      ∀ t ∈ propagateTechs, t ∉ forcingChainTechs := by
  constructor
  · intro E g pos val
    exact propagateLoop_steps_le E 200 _
  · decide

/-- Witness for C7 at a concrete engine family, grid and hypothesis. -/
theorem c7_propagation_bounded_witness :
    Technique.NakedSingle ∈ propagateTechs ∧
    Technique.NakedSingle ∉ forcingChainTechs ∧
    propagate_full_steps noEngines fullGrid ⟨0, by omega⟩ (dg 1) ≤ 200 :=
  ⟨by decide, c7_propagation_bounded.2 Technique.NakedSingle (by decide),
    c7_propagation_bounded.1 noEngines fullGrid ⟨0, by omega⟩ (dg 1)⟩

/-- C8 (difficulty mapping): technique_to_difficulty agrees with the banded
table of the claim for every technique and empty-cell count, and
rate_difficulty applies it to the hardest technique of solve_with_techniques
with the empty-cell count taken from the input grid before solving. -/
theorem c8_difficulty_mapping :
    (∀ t e, Solver.technique_to_difficulty t e = specDifficultyTable t e) ∧
    ∀ (E : Engines) (g : Grid),
      Solver.rate_difficulty E g =
        Solver.technique_to_difficulty
          (Solver.solve_with_techniques E (deepClone g)).1
          (emptyCells g.solved).length := by
  constructor
  · intro t e
    cases t <;> rfl
  · intro E g
    rfl

theorem propagateLoop_flag (E : Engines) :
    ∀ fuel (g : Grid),
      (propagateLoop E fuel g).2.1 = has_contradiction (propagateLoop E fuel g).1 := by
  intro fuel
  induction fuel with
  | zero => intro g; rfl
  | succ n ih =>
    intro g
    rw [propagateLoop_succ]
    by_cases hc : has_contradiction g
    · rw [if_pos hc]
      exact hc.symm
    · rw [if_neg hc]
      by_cases hcm : g.is_complete
      · rw [if_pos hcm]
        exact (Bool.not_eq_true _ |>.mp hc).symm
      · rw [if_neg hcm]
        rcases hf : propagateTechs.findSome? (fun t => E t g) with _ | f
        · rfl
        · exact ih (apply_finding g f)

/-- C9 (contradiction flag): the boolean of propagate_full equals
has_contradiction of the returned grid; the early exit returns true the
moment a contradiction is seen, and the completion exit returns false for a
grid whose contradiction check just failed. -/
theorem c9_flag_matches_contradiction :
    (∀ (E : Engines) (g : Grid) (pos : Pos) (val : Val),
      (propagate_full E g pos val).2 =
        has_contradiction (propagate_full E g pos val).1) ∧
    (∀ (E : Engines) (fuel : Nat) (h : Grid), has_contradiction h = true →
      propagateLoop E (fuel+1) h = (h, true, 0)) ∧
    (∀ (E : Engines) (fuel : Nat) (h : Grid), has_contradiction h = false →
      h.is_complete = true → propagateLoop E (fuel+1) h = (h, false, 0)) := by
  refine ⟨?_, ?_, ?_⟩
  · intro E g pos val
    exact propagateLoop_flag E 200 _
  · intro E fuel h hc
    rw [propagateLoop_succ, if_pos hc]
  · intro E fuel h hc hcm
    rw [propagateLoop_succ, if_neg (by rw [hc]; exact Bool.false_ne_true), if_pos hcm]

theorem swtLoop_of_complete (E : Engines) (fuel : Nat) (g : Grid) (maxT : Technique)
    (hc : g.is_complete = true) : swtLoop E (fuel+1) g maxT = (maxT, 0) := by
  rw [swtLoop_succ, if_pos hc]

/-- C10 (complete grids): on an already complete grid solve_with_techniques
applies no finding and returns its initial maximum NakedSingle, so
rate_difficulty returns Beginner (the empty-cell count 0 is at most 35) and
rate_se returns the rating of NakedSingle. -/
theorem c10_complete_grid_rating (E : Engines) (g : Grid) (hc : g.is_complete = true) :
    Solver.solve_with_techniques E g = (Technique.NakedSingle, 0) ∧
    Solver.rate_difficulty E g = Difficulty.Beginner ∧
    ∀ se_rating : Technique → ℚ,
      Solver.rate_se se_rating E g = se_rating Technique.NakedSingle := by
  have hrc : (recalcG g).is_complete = true := hc
  have h1 : Solver.solve_with_techniques E g = (Technique.NakedSingle, 0) := by
    unfold Solver.solve_with_techniques
    exact swtLoop_of_complete E 728 (recalcG g) Technique.NakedSingle hrc
  refine ⟨h1, ?_, ?_⟩
  · unfold Solver.rate_difficulty
    have h2 : Solver.solve_with_techniques E (deepClone g) = (Technique.NakedSingle, 0) := h1
    rw [h2, emptyCells_nil_of_complete hc]
    rfl
  · intro se_rating
    unfold Solver.rate_se
    have h2 : Solver.solve_with_techniques E (deepClone g) = (Technique.NakedSingle, 0) := h1
    rw [h2]

/-- Witness for C10 at a concrete complete grid. -/
theorem c10_complete_grid_rating_witness :
    fullGrid.is_complete = true ∧
    ∀ E : Engines, Solver.solve_with_techniques E fullGrid = (Technique.NakedSingle, 0) ∧
      Solver.rate_difficulty E fullGrid = Difficulty.Beginner ∧
      ∀ se_rating : Technique → ℚ,
        Solver.rate_se se_rating E fullGrid = se_rating Technique.NakedSingle :=
  ⟨by decide, fun E => c10_complete_grid_rating E fullGrid (by decide)⟩

/-! Pipeline ordering facts. -/

theorem pipeline_pairwise : List.Pairwise (fun a b => rank a < rank b) pipelineOrder := by
  decide

theorem rank_le_44 : ∀ t : Technique, rank t ≤ 44 := by decide

theorem mem_pipeline_of_rank_lt : ∀ t : Technique, rank t < 44 → t ∈ pipelineOrder := by
  decide

theorem findSome?_none_of_rank_lt {F : Technique → Option Finding}
    (htag : ∀ t f, F t = some f → f.technique = t) :
    ∀ l : List Technique, List.Pairwise (fun a b => rank a < rank b) l →
      ∀ f : Finding, l.findSome? F = some f →
        ∀ t ∈ l, rank t < rank f.technique → F t = none := by
  intro l
  induction l with
  | nil =>
    intro _ f hfs
    rw [List.findSome?_nil] at hfs
    cases hfs
  | cons a tl ih =>
    intro hpw f hfs t ht hrt
    rw [List.findSome?_cons] at hfs
    rcases hFa : F a with _ | fa
    · rw [hFa] at hfs
      rcases List.mem_cons.mp ht with rfl | ht2
      · exact hFa
      · exact ih hpw.of_cons f hfs t ht2 hrt
    · rw [hFa] at hfs
      have hfa : fa = f := Option.some_injective _ hfs
      have hta : f.technique = a := hfa ▸ htag a fa hFa
      rcases List.mem_cons.mp ht with rfl | ht2
      · rw [hta] at hrt
        omega
      · have := (List.pairwise_cons.mp hpw).1 t ht2
        rw [hta] at hrt
        omega

theorem find_backtracking_hint_tag {g : Grid} {f : Finding}
    (h : find_backtracking_hint g = some f) : f.technique = Technique.Backtracking := by
  unfold find_backtracking_hint at h
  rcases hres : solveRec 82 g.solved with _ | s
  · simp only [hres] at h
    exact Option.noConfusion h
  · simp only [hres] at h
    rcases hel : emptyCells g.solved with _ | ⟨p, rest⟩
    · simp only [hel] at h
      exact Option.noConfusion h
    · simp only [hel] at h
      rcases hv : s p with _ | v
      · simp only [hv] at h
        exact Option.noConfusion h
      · simp only [hv, Option.some_inj] at h
        rw [← h]

/-- C4 (pipeline ordering): the dispatch list of find_first_technique is
strictly ascending in the canonical order, and when get_hint returns a hint
tagged T (assuming each finder tags its findings with its own technique),
every finder of a technique strictly below T returned nothing on the working
grid. -/
theorem c4_pipeline_ordering :
    List.Pairwise (fun a b => rank a < rank b) pipelineOrder ∧
    ∀ (E : Engines) (g : Grid) (h : Hint),
      (∀ t g2 f, E t g2 = some f → f.technique = t) →
      Solver.get_hint E g = some h →
      ∀ t, rank t < rank h.technique → E t (recalcG (deepClone g)) = none := by
  refine ⟨pipeline_pairwise, ?_⟩
  intro E g h htag hh t hrt
  unfold Solver.get_hint at hh
  rcases hff : Solver.find_first_technique E (recalcG (deepClone g)) with _ | f
  · rw [hff] at hh
    rcases hbh : find_backtracking_hint (recalcG (deepClone g)) with _ | fb
    · rw [hbh] at hh; cases hh
    · rw [hbh] at hh
      have hb : fb.technique = Technique.Backtracking := find_backtracking_hint_tag hbh
      have hh2 : h = fb.to_hint := (Option.some_injective _ hh).symm
      have hrank : rank h.technique = 44 := by
        rw [hh2]
        show rank fb.technique = 44
        rw [hb]
        rfl
      have hmem : t ∈ pipelineOrder := mem_pipeline_of_rank_lt t (by omega)
      unfold Solver.find_first_technique at hff
      rw [List.findSome?_eq_none_iff] at hff
      exact hff t hmem
  · rw [hff] at hh
    have hh2 : h = f.to_hint := (Option.some_injective _ hh).symm
    have htech : h.technique = f.technique := by rw [hh2]; rfl
    have hle : rank f.technique ≤ 44 := rank_le_44 _
    have hmem : t ∈ pipelineOrder := by
      apply mem_pipeline_of_rank_lt
      rw [htech] at hrt
      omega
    exact findSome?_none_of_rank_lt
      (F := fun t2 => E t2 (recalcG (deepClone g)))
      (fun t2 f2 hf2 => htag t2 _ f2 hf2)
      pipelineOrder pipeline_pairwise f hff t hmem (htech ▸ hrt)

/-- C5 (hint fallback): get_hint returns none only for complete or unsolvable
grids; on an incomplete solvable grid where no technique finder applies, it
returns a Backtracking-tagged placement derived from a full solve. -/
theorem c5_hint_fallback (E : Engines) (g : Grid) :
    (Solver.get_hint E g = none →
      g.is_complete = true ∨ ¬ ∃ s, IsCompletion g.solved s) ∧
    (g.is_complete = false → (∃ s, IsCompletion g.solved s) →
      (∀ t, E t (recalcG (deepClone g)) = none) →
      ∃ h : Hint, Solver.get_hint E g = some h ∧
        h.technique = Technique.Backtracking ∧
        ∃ p v, h.hint_type = HintType.SetValue p v) := by
  constructor
  · intro hn
    unfold Solver.get_hint at hn
    rcases hff : Solver.find_first_technique E (recalcG (deepClone g)) with _ | f
    · rw [hff] at hn
      rcases hbh : find_backtracking_hint (recalcG (deepClone g)) with _ | fb
      · unfold find_backtracking_hint at hbh
        rcases hres : solveRec 82 g.solved with _ | s
        · right
          rintro ⟨s, hs⟩
          exact solveRec_ne_none 82 g.solved s (emptyCount_lt_82 _) hs hres
        · rcases hel : emptyCells g.solved with _ | ⟨p, rest⟩
          · left
            exact complete_of_emptyCells_nil hel
          · exfalso
            have hres2 : solveRec 82 (recalcG (deepClone g)).solved = some s := hres
            have hel2 : emptyCells (recalcG (deepClone g)).solved = p :: rest := hel
            simp only [hres2, hel2] at hbh
            obtain ⟨hcomp, _, _⟩ := solveRec_sound 82 g.solved s (emptyCount_lt_82 _) hres
            rcases hv : s p with _ | v
            · exact hcomp p hv
            · simp only [hv] at hbh
              exact Option.noConfusion hbh
      · rw [hbh] at hn
        cases hn
    · rw [hff] at hn
      cases hn
  · intro hinc hex hnone
    obtain ⟨s0, hs0⟩ := hex
    rcases hres : solveRec 82 g.solved with _ | s
    · exact absurd hres (solveRec_ne_none 82 g.solved s0 (emptyCount_lt_82 _) hs0)
    · rcases hel : emptyCells g.solved with _ | ⟨p, rest⟩
      · rw [complete_of_emptyCells_nil hel] at hinc
        cases hinc
      · obtain ⟨hcomp, _, _⟩ := solveRec_sound 82 g.solved s (emptyCount_lt_82 _) hres
        rcases hv : s p with _ | v
        · exact absurd hv (hcomp p)
        · have hff : Solver.find_first_technique E (recalcG (deepClone g)) = none := by
            unfold Solver.find_first_technique
            rw [List.findSome?_eq_none_iff]
            intro t _
            exact hnone t
          have hbh : find_backtracking_hint (recalcG (deepClone g)) =
              some ⟨Technique.Backtracking, InferenceResult.Placement p v⟩ := by
            unfold find_backtracking_hint
            have hres2 : solveRec 82 (recalcG (deepClone g)).solved = some s := hres
            have hel2 : emptyCells (recalcG (deepClone g)).solved = p :: rest := hel
            simp only [hres2, hel2, hv]
          refine ⟨⟨Technique.Backtracking, HintType.SetValue p v⟩, ?_, rfl, p, v, rfl⟩
          unfold Solver.get_hint
          rw [hff, hbh]
          rfl

/-- Witness for C4: with the empty engine family on the one-hole grid, the
hint comes from the backtracking fallback with the maximal tag, and every
easier finder indeed returned nothing. -/
theorem c4_pipeline_ordering_witness :
    (∀ t g2 f, noEngines t g2 = some f → f.technique = t) ∧
    Solver.get_hint noEngines oneHoleGrid =
      some ⟨Technique.Backtracking, HintType.SetValue ⟨40, by omega⟩ (dg 8)⟩ ∧
    ∀ t, rank t < rank Technique.Backtracking →
      noEngines t (recalcG (deepClone oneHoleGrid)) = none := by
  have htag : ∀ t g2 f, noEngines t g2 = some f → f.technique = t := by
    intro t g2 f h
    cases h
  have hh : Solver.get_hint noEngines oneHoleGrid =
      some ⟨Technique.Backtracking, HintType.SetValue ⟨40, by omega⟩ (dg 8)⟩ := by decide
  exact ⟨htag, hh, c4_pipeline_ordering.2 noEngines oneHoleGrid _ htag hh⟩

/-- Witness for C5 at the incomplete, uniquely solvable one-hole grid with the
empty engine family. -/
theorem c5_hint_fallback_witness :
    oneHoleGrid.is_complete = false ∧ (∃ s, IsCompletion oneHoleGrid.solved s) ∧
    ∃ h : Hint, Solver.get_hint noEngines oneHoleGrid = some h ∧
      h.technique = Technique.Backtracking ∧
      ∃ p v, h.hint_type = HintType.SetValue p v :=
  ⟨by decide, ⟨S1f, oneHole_completion_S1⟩,
    (c5_hint_fallback noEngines oneHoleGrid).2 (by decide)
      ⟨S1f, oneHole_completion_S1⟩ (fun t => rfl)⟩

/-- C3 counterexample: on the complete but conflicting all-ones grid the
count finds no unsolved cell and reports one solution, so the uniqueness
oracle answers true although the grid has no completion at all. -/
theorem c3_uniqueness_counterexample :
    Solver.has_unique_solution allOnesGrid = true ∧
    ¬ ∃ s, IsCompletion allOnesGrid.solved s := by
  constructor
  · decide
  · rintro ⟨s, hs, he⟩
    have h0 : s ⟨0, by omega⟩ = dg 1 := he _ _ rfl
    have h1 : s ⟨1, by omega⟩ = dg 1 := he _ _ rfl
    have hp : Peer ⟨0, by omega⟩ ⟨1, by omega⟩ := by decide
    exact hs _ _ hp (h0.trans h1.symm)

/-- C3 amended (uniqueness oracle): has_unique_solution is definitionally
count_solutions at limit 2 compared with 1, and on every grid whose given
digits do not conflict it answers true exactly when the grid has exactly one
completion. -/
theorem c3_uniqueness_oracle_amended (g : Grid) (hg : Consistent g.solved) :
    Solver.has_unique_solution g = (Solver.count_solutions g 2 == 1) ∧
    (Solver.has_unique_solution g = true ↔ ∃! s, IsCompletion g.solved s) := by
  refine ⟨rfl, ?_⟩
  unfold Solver.has_unique_solution
  rw [count_solutions_correct g hg 2, beq_iff_eq]
  constructor
  · intro hmin
    have hcard : (completionsOf g.solved).card = 1 := by omega
    obtain ⟨s, hs⟩ := Finset.card_eq_one.mp hcard
    have hmem : IsCompletion g.solved s := by
      rw [← mem_completionsOf, hs]
      exact Finset.mem_singleton_self s
    refine ⟨s, hmem, ?_⟩
    intro t ht
    have h2 : t ∈ completionsOf g.solved := mem_completionsOf.mpr ht
    rw [hs, Finset.mem_singleton] at h2
    exact h2
  · rintro ⟨s, hs, huniq⟩
    have hset : completionsOf g.solved = {s} :=
      Finset.eq_singleton_iff_unique_mem.mpr
        ⟨mem_completionsOf.mpr hs, fun t ht => huniq t (mem_completionsOf.mp ht)⟩
    rw [hset, Finset.card_singleton]
    rfl

/-- Witness for the amended C3 at the one-hole grid. -/
theorem c3_uniqueness_oracle_amended_witness :
    Consistent oneHoleGrid.solved ∧
    (Solver.has_unique_solution oneHoleGrid = true ↔
      ∃! s, IsCompletion oneHoleGrid.solved s) :=
  ⟨oneHole_consistent, (c3_uniqueness_oracle_amended oneHoleGrid oneHole_consistent).2⟩

/-- C2 counterexample: the rectangle-holes grid is solvable both to S1f and to
S2f, two distinct solutions, so solve cannot return a grid equal to every
solution its input is solvable to. -/
theorem c2_solve_counterexample :
    ¬ ∀ s, IsCompletion rectHolesGrid.solved s →
        ∃ h : Grid, Solver.solve rectHolesGrid = some h ∧
          h.solved = fun p => some (s p) := by
  intro hall
  obtain ⟨h1, e1, hs1⟩ := hall S1f rectHoles_completion_S1
  obtain ⟨h2, e2, hs2⟩ := hall S2f rectHoles_completion_S2
  have hgrid : h1 = h2 := Option.some_injective _ (e1.symm.trans e2)
  have hfun : (fun p : Pos => some (S1f p)) = (fun p : Pos => some (S2f p)) := by
    rw [← hs1, hgrid, hs2]
  have h0 := congrFun hfun ⟨0, by omega⟩
  rw [Option.some_inj] at h0
  exact absurd h0 (by decide)

/-- C2 amended (soundness of solve): on every grid whose given digits do not
conflict, solve returns a complete valid extension (every house a permutation
of the nine digits) whenever one exists, equal to the solution when the
solution is unique, and returns none when no solution exists. -/
theorem c2_solve_amended (g : Grid) (hg : Consistent g.solved) :
    (∀ s, IsCompletion g.solved s →
      ∃ sf, Solver.solve g = some (mkGridOf (fun p => some (sf p))) ∧
        IsCompletion g.solved sf ∧ HousePerm sf) ∧
    ((¬ ∃ s, IsCompletion g.solved s) → Solver.solve g = none) ∧
    (∀ s, IsCompletion g.solved s → (∀ t, IsCompletion g.solved t → t = s) →
      Solver.solve g = some (mkGridOf (fun p => some (s p)))) := by
  have hmain : ∀ s, IsCompletion g.solved s →
      ∃ sf, Solver.solve g = some (mkGridOf (fun p => some (sf p))) ∧
        IsCompletion g.solved sf ∧ HousePerm sf := by
    intro s hs
    rcases hres : solveRec 82 g.solved with _ | hout
    · exact absurd hres (solveRec_ne_none 82 g.solved s (emptyCount_lt_82 _) hs)
    · obtain ⟨hcomp, hext, hcons⟩ := solveRec_sound 82 g.solved hout (emptyCount_lt_82 _) hres
      have hfun : hout = fun p => some (totalOf hout hcomp p) :=
        funext fun p => totalOf_sound hcomp p
      have hvalid : ValidSol (totalOf hout hcomp) := by
        intro p q hpq heq
        apply (hcons hg) p q (totalOf hout hcomp p) hpq (totalOf_sound hcomp p)
        rw [totalOf_sound hcomp q, heq]
      have hextends : ExtendsG g.solved (totalOf hout hcomp) := by
        intro p v hv
        have h2 := totalOf_sound hcomp p
        rw [hext p v hv] at h2
        exact (Option.some_injective _ h2).symm
      refine ⟨totalOf hout hcomp, ?_, ⟨hvalid, hextends⟩, housePerm_of_validSol hvalid⟩
      show (solveRec 82 g.solved).map mkGridOf = some (mkGridOf (fun p => some (totalOf hout hcomp p)))
      rw [hres, ← hfun]
      rfl
  refine ⟨hmain, ?_, ?_⟩
  · intro hnone
    rcases hres : solveRec 82 g.solved with _ | hout
    · show (solveRec 82 g.solved).map mkGridOf = none
      rw [hres]
      rfl
    · exfalso
      obtain ⟨hcomp, hext, hcons⟩ := solveRec_sound 82 g.solved hout (emptyCount_lt_82 _) hres
      apply hnone
      refine ⟨totalOf hout hcomp, ?_, ?_⟩
      · intro p q hpq heq
        apply (hcons hg) p q (totalOf hout hcomp p) hpq (totalOf_sound hcomp p)
        rw [totalOf_sound hcomp q, heq]
      · intro p v hv
        have h2 := totalOf_sound hcomp p
        rw [hext p v hv] at h2
        exact (Option.some_injective _ h2).symm
  · intro s hs huniq
    obtain ⟨sf, hsolve, hsf, _⟩ := hmain s hs
    rw [huniq sf hsf] at hsolve
    exact hsolve

/-- Witness for the amended C2 at the one-hole grid and its completion. -/
theorem c2_solve_amended_witness :
    Consistent oneHoleGrid.solved ∧ IsCompletion oneHoleGrid.solved S1f ∧
    ∃ sf, Solver.solve oneHoleGrid = some (mkGridOf (fun p => some (sf p))) ∧
      IsCompletion oneHoleGrid.solved sf ∧ HousePerm sf :=
  ⟨oneHole_consistent, oneHole_completion_S1,
    (c2_solve_amended oneHoleGrid oneHole_consistent).1 S1f oneHole_completion_S1⟩

end Sudoku
